import Mathlib

/-!
Verification development for the lightcone repository: a shallow embedding of
its spacetime model (src/spacetime.rs), content-addressed events (src/event.rs),
the append-only event DAG (src/dag.rs) and the speed-of-light delivery gate
(src/physics.rs), together with theorems settling the specification claims.

Modelling conventions:
* Rust `u128` and `usize` values are `ℕ`; the `u128 as i128` cast and i128
  wrap-around are modelled explicitly on `ℤ` where the code performs them.
* Rust `f64` values that only flow through arithmetic are modelled as exact
  rationals `ℚ` (IEEE-754 rounding is not modelled; none of the proved claims
  depends on rounding).  The sign/NaN/infinity behaviour of `f64` that decides
  panics in the gate is modelled separately by the `F64` type.
* `Instant` is a rational number; `Instant::now()` is passed explicitly as a
  `now` argument to the operations that sample it.
* `BTreeSet<EventHash>` is a `Finset ℕ` (a 256-bit hash is modelled as the
  natural number denoted by its bytes in big-endian order, so byte-wise
  lexicographic order on hashes coincides with the numeric order).
* The BLAKE3 compression itself is an uninterpreted parameter `H`; everything
  the claims need (which bytes are fed, in which order) is explicit.
-/

set_option maxRecDepth 16000

/-! ## Spacetime (src/spacetime.rs) -/

/-- Default speed of light, `DEFAULT_C` in src/spacetime.rs (m/s). -/
def DEFAULT_C : ℚ := 299792458

/-- Rust cast `u128 as i128`: bit-reinterpretation, so values at or above
`2^127` become negative. -/
def asI128 (n : ℕ) : ℤ :=
  if n % 2 ^ 128 < 2 ^ 127 then (n % 2 ^ 128 : ℤ) else (n % 2 ^ 128 : ℤ) - 2 ^ 128

/-- Two's-complement wrap-around of an integer into the `i128` range, the
release-mode behaviour of `i128` subtraction in Rust. -/
def wrapI128 (z : ℤ) : ℤ := (z + 2 ^ 127) % 2 ^ 128 - 2 ^ 127

/-- SpacetimeCoord from src/spacetime.rs: `t` is a `u128` count of
nanoseconds, `x y z` are `f64` metres (modelled as exact rationals). -/
structure SpacetimeCoord where
  t : ℕ
  x : ℚ
  y : ℚ
  z : ℚ
deriving DecidableEq

/-- The signed nanosecond difference `other.t as i128 - self.t as i128`
computed by `interval_sq`, including the `u128 as i128` casts and i128
wrap-around. -/
def deltaTNs (a b : SpacetimeCoord) : ℤ := wrapI128 (asI128 b.t - asI128 a.t)

/-- SpacetimeCoord::interval_sq from src/spacetime.rs.  The speed of light
`c` is the value the code reads from the process-global cell; it is passed
explicitly here.  Arithmetic is exact (`delta_t_ns as f64 * 1e-9` and the
f64 products are modelled without rounding). -/
def intervalSq (c : ℚ) (a b : SpacetimeCoord) : ℚ :=
  let delta_t_s : ℚ := (deltaTNs a b : ℚ) * (1 / 1000000000)
  let delta_x := b.x - a.x
  let delta_y := b.y - a.y
  let delta_z := b.z - a.z
  let spatial_sq := delta_x * delta_x + delta_y * delta_y + delta_z * delta_z
  let ct := c * delta_t_s
  ct * ct - spatial_sq

/-- SpacetimeCoord::partial_cmp from src/spacetime.rs: `none` models Rust's
`None` (incomparable / spacelike). -/
def partialCmp (c : ℚ) (a b : SpacetimeCoord) : Option Ordering :=
  if intervalSq c a b < 0 then none
  else
    let delta_t_ns := deltaTNs a b
    if 0 < delta_t_ns then some Ordering.lt
    else if delta_t_ns < 0 then some Ordering.gt
    else some Ordering.eq

/-! ## Events and content hashing (src/event.rs) -/

/-- Operation from src/event.rs.  `String` keys and `Vec<u8>` values are
byte lists. -/
inductive Operation where
  | put (key : List ℕ) (value : List ℕ)
  | delete (key : List ℕ)
  | merge
  | genesis
deriving DecidableEq

/-- Little-endian byte list of width `w` for `n` (used for `to_le_bytes`). -/
def leBytes : ℕ → ℕ → List ℕ
  | 0, _ => []
  | w + 1, n => n % 256 :: leBytes w (n / 256)

/-- Big-endian byte list of width `w` for `n` (used where Rust feeds raw
byte arrays such as `Uuid::as_bytes` and the 32 bytes of a hash; with this
choice byte-wise order on the arrays is numeric order on the values). -/
def beBytes (w n : ℕ) : List ℕ := (leBytes w n).reverse

/-- Canonical byte encoding of a rational standing in for the 8 raw bytes of
an IEEE-754 double (`to_le_bytes`).  Any fixed injection works for the claims
we settle; the bytes of the pair (numerator magnitude, denominator) with a
sign byte are used. -/
def f64Bytes (q : ℚ) : List ℕ :=
  (if q < 0 then 1 else 0) :: leBytes 8 (Nat.pair q.num.natAbs q.den)

/-- Serialization of Operation by bincode 1.x with its default options, as
used by `bincode::serialize` in src/event.rs: a little-endian `u32` variant
index, `u64` length-prefixed strings and byte vectors. -/
def bincodeOp : Operation → List ℕ
  | Operation.put key value =>
      leBytes 4 0 ++ leBytes 8 key.length ++ key ++ leBytes 8 value.length ++ value
  | Operation.delete key => leBytes 4 1 ++ leBytes 8 key.length ++ key
  | Operation.merge => leBytes 4 2
  | Operation.genesis => leBytes 4 3

/-- The byte stream fed to the BLAKE3 hasher by Event::compute_hash in
src/event.rs: the 16 id bytes, each parent hash in the ascending (byte-wise)
iteration order of the `BTreeSet`, `t.to_le_bytes()`, the three coordinate
doubles, then the bincode payload. -/
def hashInput (id : ℕ) (parents : Finset ℕ) (coords : SpacetimeCoord)
    (payload : Operation) : List ℕ :=
  beBytes 16 id
    ++ (parents.sort (· ≤ ·)).flatMap (beBytes 32)
    ++ leBytes 16 coords.t
    ++ f64Bytes coords.x ++ f64Bytes coords.y ++ f64Bytes coords.z
    ++ bincodeOp payload

/-- Event::compute_hash from src/event.rs; `H` is the BLAKE3 digest function
(uninterpreted: the claims about hashing only concern which bytes are fed). -/
def computeHash (H : List ℕ → ℕ) (id : ℕ) (parents : Finset ℕ)
    (coords : SpacetimeCoord) (payload : Operation) : ℕ :=
  H (hashInput id parents coords payload)

/-- Event from src/event.rs.  `id` is the 128-bit `Uuid`, `parents` the
`BTreeSet<EventHash>`, `hash` the stored content address. -/
structure Event where
  id : ℕ
  parents : Finset ℕ
  coords : SpacetimeCoord
  payload : Operation
  hash : ℕ
deriving DecidableEq

/-- Event::new from src/event.rs, with the freshly generated random `id`
passed explicitly and the digest function `H` a parameter: stores the
computed content hash. -/
def Event.new (H : List ℕ → ℕ) (id : ℕ) (parents : Finset ℕ)
    (coords : SpacetimeCoord) (payload : Operation) : Event :=
  { id := id, parents := parents, coords := coords, payload := payload,
    hash := computeHash H id parents coords payload }

/-! ## Wire form of an event (serde, src/event.rs and src/network.rs) -/

/-- The fields of an Event that participate in serde (de)serialization: the
`hash` field is marked `#[serde(skip)]` in src/event.rs and is absent. -/
structure WireEvent where
  id : ℕ
  parents : Finset ℕ
  coords : SpacetimeCoord
  payload : Operation
deriving DecidableEq

/-- Serialization of an Event (the field content that
`bincode::serialize` encodes); `hash` is skipped. -/
def Event.toWire (e : Event) : WireEvent :=
  { id := e.id, parents := e.parents, coords := e.coords, payload := e.payload }

/-- Deserialization of an Event as performed by `bincode::deserialize` in
`handle_connection` (src/network.rs): serde fills the skipped `hash` field
with `Default::default()`, the all-zero 32-byte array, i.e. `0`.  No code on
the receive path recomputes the hash afterwards; the decoded event is handed
to `PhysicsLayer::ingest` as is. -/
def WireEvent.decode (w : WireEvent) : Event :=
  { id := w.id, parents := w.parents, coords := w.coords, payload := w.payload,
    hash := 0 }

/-! ## The event DAG (src/dag.rs) -/

/-- DagError from src/dag.rs. -/
inductive DagError where
  | missingParent
deriving DecidableEq

/-- First-match lookup in the hash-to-node-index map (DashMap is modelled as
an association list whose entry order is not observable). -/
def idxLookup : List (ℕ × ℕ) → ℕ → Option ℕ
  | [], _ => none
  | (k, v) :: m, h => if k = h then some v else idxLookup m h

/-- DashMap::insert: replaces any existing entry for the key. -/
def idxInsert (m : List (ℕ × ℕ)) (k v : ℕ) : List (ℕ × ℕ) :=
  (k, v) :: m.filter (fun p => p.1 != k)

/-- SpacetimeDAG from src/dag.rs.  Graph nodes live in `nodes` in insertion
order (their positions are the stable petgraph node indices), `edges` are
(child index, parent index) pairs, `index_map` maps a content hash to a node
index and `heads` is the concurrency frontier. -/
structure SpacetimeDAG where
  nodes : List Event
  edges : List (ℕ × ℕ)
  index_map : List (ℕ × ℕ)
  heads : List ℕ
deriving DecidableEq

/-- The set of hashes present in the index. -/
def SpacetimeDAG.indexKeys (d : SpacetimeDAG) : List ℕ := d.index_map.map Prod.fst

/-- SpacetimeDAG::new from src/dag.rs: a single genesis event with empty
parent set at coordinate (0,0,0,0); its random id and BLAKE3 hash are the
parameters `gid` and `ghash`. -/
def SpacetimeDAG.new (gid ghash : ℕ) : SpacetimeDAG :=
  let genesis : Event :=
    { id := gid, parents := ∅, coords := ⟨0, 0, 0, 0⟩,
      payload := Operation.genesis, hash := ghash }
  { nodes := [genesis], edges := [], index_map := [(ghash, 0)], heads := [ghash] }

/-- SpacetimeDAG::add_event from src/dag.rs, faithfully in the code's order:
(1) if some parent is absent from the index, return `MissingParent` with the
state untouched; otherwise (2) append the node, (3) insert the hash into the
index (overwriting any previous entry), (4) add an edge to each parent found
in the post-insert index, (5) retain in `heads` only hashes not among the
event's parents and push the event's hash.  There is no duplicate check. -/
def SpacetimeDAG.addEvent (d : SpacetimeDAG) (e : Event) :
    SpacetimeDAG × Option DagError :=
  if ∀ p ∈ e.parents, (idxLookup d.index_map p).isSome then
    let n := d.nodes.length
    let index' := idxInsert d.index_map e.hash n
    let newEdges := (e.parents.sort (· ≤ ·)).filterMap
      (fun p => (idxLookup index' p).map (fun pi => (n, pi)))
    ({ nodes := d.nodes ++ [e],
       edges := d.edges ++ newEdges,
       index_map := index',
       heads := d.heads.filter (fun h => decide (h ∉ e.parents)) ++ [e.hash] },
     none)
  else (d, some DagError.missingParent)

/-! ## DAG lemmas -/

/-- Lookup succeeds exactly for keys present in the map. -/
theorem idxLookup_isSome_iff (m : List (ℕ × ℕ)) (h : ℕ) :
    (idxLookup m h).isSome ↔ h ∈ m.map Prod.fst := by
  induction m with
  | nil => simp [idxLookup]
  | cons p m ih =>
    obtain ⟨k, v⟩ := p
    by_cases hk : k = h
    · subst hk
      simp [idxLookup]
    · simp only [idxLookup, if_neg hk, List.map_cons, List.mem_cons, ih]
      constructor
      · exact Or.inr
      · rintro (rfl | hm)
        · exact absurd rfl hk
        · exact hm

/-- Lookup fails exactly for keys absent from the map. -/
theorem idxLookup_eq_none_iff (m : List (ℕ × ℕ)) (h : ℕ) :
    idxLookup m h = none ↔ h ∉ m.map Prod.fst := by
  rw [← idxLookup_isSome_iff, Option.isSome_iff_ne_none]
  tauto

/-- Keys after a DashMap insert: the inserted key together with the old keys. -/
theorem idxInsert_keys (m : List (ℕ × ℕ)) (k v h : ℕ) :
    h ∈ (idxInsert m k v).map Prod.fst ↔ h = k ∨ h ∈ m.map Prod.fst := by
  simp only [idxInsert, List.map_cons, List.mem_cons, List.mem_map,
    List.mem_filter]
  constructor
  · rintro (rfl | ⟨p, ⟨hp, _⟩, rfl⟩)
    · exact Or.inl rfl
    · exact Or.inr ⟨p, hp, rfl⟩
  · rintro (rfl | ⟨p, hp, rfl⟩)
    · exact Or.inl rfl
    · by_cases hpk : p.1 = k
      · exact Or.inl hpk
      · exact Or.inr ⟨p, ⟨hp, by simpa using hpk⟩, rfl⟩

/-- Claim C4 (confirmed): `add_event(e)` returns `MissingParent` if and only
if some `p ∈ e.parents` is absent from the index, and in that case the whole
DAG state is left unchanged (the check precedes every mutation). -/
theorem dag_addEvent_missingParent_iff (d : SpacetimeDAG) (e : Event) :
    ((d.addEvent e).2 = some DagError.missingParent ↔
      ∃ p ∈ e.parents, idxLookup d.index_map p = none) ∧
    ((d.addEvent e).2 = some DagError.missingParent → (d.addEvent e).1 = d) := by
  by_cases hall : ∀ p ∈ e.parents, (idxLookup d.index_map p).isSome
  · constructor
    · simp only [SpacetimeDAG.addEvent, if_pos hall]
      constructor
      · intro hcontra
        exact absurd hcontra (by simp)
      · rintro ⟨p, hp, hnone⟩
        have := hall p hp
        rw [hnone] at this
        exact absurd this (by simp)
    · intro habs
      rw [SpacetimeDAG.addEvent, if_pos hall] at habs
      exact absurd habs (by simp)
  · constructor
    · simp only [SpacetimeDAG.addEvent, if_neg hall]
      push_neg at hall
      obtain ⟨p, hp, hns⟩ := hall
      constructor
      · intro _
        exact ⟨p, hp, by simpa [Option.isSome_iff_ne_none] using hns⟩
      · intro _
        trivial
    · intro _
      rw [SpacetimeDAG.addEvent, if_neg hall]

/-- Witness for C4 at a concrete input: an event referencing the unknown
parent hash 9 is rejected and the freshly created DAG is unchanged. -/
theorem dag_addEvent_missingParent_iff_witness :
    (((SpacetimeDAG.new 0 1).addEvent
        ⟨12, {9}, ⟨0, 0, 0, 0⟩, Operation.merge, 4⟩).2 =
      some DagError.missingParent) ∧
    (((SpacetimeDAG.new 0 1).addEvent
        ⟨12, {9}, ⟨0, 0, 0, 0⟩, Operation.merge, 4⟩).1 = SpacetimeDAG.new 0 1) := by
  have h := dag_addEvent_missingParent_iff (SpacetimeDAG.new 0 1)
    ⟨12, {9}, ⟨0, 0, 0, 0⟩, Operation.merge, 4⟩
  have herr := h.1.mpr ⟨9, by decide, by decide⟩
  exact ⟨herr, h.2 herr⟩

/-- Claim C3 (corrected), counterexample: re-admitting the already-resident
event with hash 2 succeeds but appends a second graph node and a duplicate
entry to `heads`, so the DAG is not left unchanged. -/
theorem dag_readmission_not_idempotent :
    ((((SpacetimeDAG.new 0 1).addEvent
        ⟨10, {1}, ⟨0, 0, 0, 0⟩, Operation.put [5] [1], 2⟩).1.addEvent
        ⟨10, {1}, ⟨0, 0, 0, 0⟩, Operation.put [5] [1], 2⟩).2 = none) ∧
    (((SpacetimeDAG.new 0 1).addEvent
        ⟨10, {1}, ⟨0, 0, 0, 0⟩, Operation.put [5] [1], 2⟩).1.heads = [2]) ∧
    ((((SpacetimeDAG.new 0 1).addEvent
        ⟨10, {1}, ⟨0, 0, 0, 0⟩, Operation.put [5] [1], 2⟩).1.addEvent
        ⟨10, {1}, ⟨0, 0, 0, 0⟩, Operation.put [5] [1], 2⟩).1.heads = [2, 2]) ∧
    (((SpacetimeDAG.new 0 1).addEvent
        ⟨10, {1}, ⟨0, 0, 0, 0⟩, Operation.put [5] [1], 2⟩).1.nodes.length = 2) ∧
    ((((SpacetimeDAG.new 0 1).addEvent
        ⟨10, {1}, ⟨0, 0, 0, 0⟩, Operation.put [5] [1], 2⟩).1.addEvent
        ⟨10, {1}, ⟨0, 0, 0, 0⟩, Operation.put [5] [1], 2⟩).1.nodes.length = 3) := by
  decide

/-- Claim C3 (amended): re-admitting an event whose hash is already resident
(and whose parents are resident) is not rejected - `add_event` returns `Ok` -
but it does not leave the DAG unchanged: it appends a second node holding the
event, rewrites `heads` by the usual retain-and-push step (introducing the
hash a second time), and so changes the state. -/
theorem dag_readmission_appends_duplicate (d : SpacetimeDAG) (e : Event)
    (hres : e.hash ∈ d.indexKeys)
    (hpar : ∀ p ∈ e.parents, p ∈ d.indexKeys) :
    (d.addEvent e).2 = none ∧
    (d.addEvent e).1.nodes = d.nodes ++ [e] ∧
    (d.addEvent e).1.heads =
      d.heads.filter (fun h => decide (h ∉ e.parents)) ++ [e.hash] ∧
    (d.addEvent e).1 ≠ d := by
  have hall : ∀ p ∈ e.parents, (idxLookup d.index_map p).isSome := by
    intro p hp
    exact (idxLookup_isSome_iff d.index_map p).mpr (hpar p hp)
  have hok : (d.addEvent e).1.nodes = d.nodes ++ [e] := by
    simp [SpacetimeDAG.addEvent, if_pos hall]
  refine ⟨by simp [SpacetimeDAG.addEvent, if_pos hall], hok,
    by simp [SpacetimeDAG.addEvent, if_pos hall], ?_⟩
  intro heq
  have : (d.addEvent e).1.nodes.length = d.nodes.length := by rw [heq]
  rw [hok] at this
  simp at this

/-- Witness for the amended C3 at a concrete input: the event with hash 2 is
resident, its re-admission succeeds and duplicates the node and head entry. -/
theorem dag_readmission_appends_duplicate_witness :
    ((((SpacetimeDAG.new 0 1).addEvent
        ⟨10, {1}, ⟨0, 0, 0, 0⟩, Operation.put [5] [1], 2⟩).1.addEvent
        ⟨10, {1}, ⟨0, 0, 0, 0⟩, Operation.put [5] [1], 2⟩).2 = none) ∧
    ((((SpacetimeDAG.new 0 1).addEvent
        ⟨10, {1}, ⟨0, 0, 0, 0⟩, Operation.put [5] [1], 2⟩).1.addEvent
        ⟨10, {1}, ⟨0, 0, 0, 0⟩, Operation.put [5] [1], 2⟩).1.nodes =
      ((SpacetimeDAG.new 0 1).addEvent
        ⟨10, {1}, ⟨0, 0, 0, 0⟩, Operation.put [5] [1], 2⟩).1.nodes ++
        [⟨10, {1}, ⟨0, 0, 0, 0⟩, Operation.put [5] [1], 2⟩]) ∧
    ((((SpacetimeDAG.new 0 1).addEvent
        ⟨10, {1}, ⟨0, 0, 0, 0⟩, Operation.put [5] [1], 2⟩).1.addEvent
        ⟨10, {1}, ⟨0, 0, 0, 0⟩, Operation.put [5] [1], 2⟩).1.heads =
      ((SpacetimeDAG.new 0 1).addEvent
        ⟨10, {1}, ⟨0, 0, 0, 0⟩, Operation.put [5] [1], 2⟩).1.heads.filter
          (fun h => decide (h ∉ (⟨10, {1}, ⟨0, 0, 0, 0⟩,
            Operation.put [5] [1], 2⟩ : Event).parents)) ++ [2]) ∧
    ((((SpacetimeDAG.new 0 1).addEvent
        ⟨10, {1}, ⟨0, 0, 0, 0⟩, Operation.put [5] [1], 2⟩).1.addEvent
        ⟨10, {1}, ⟨0, 0, 0, 0⟩, Operation.put [5] [1], 2⟩).1 ≠
      ((SpacetimeDAG.new 0 1).addEvent
        ⟨10, {1}, ⟨0, 0, 0, 0⟩, Operation.put [5] [1], 2⟩).1) :=
  dag_readmission_appends_duplicate _ _ (by decide) (by decide)

/-- Success characterization of `add_event`: it returns `Ok` exactly when
every parent is found in the index. -/
theorem addEvent_ok_iff (d : SpacetimeDAG) (e : Event) :
    (d.addEvent e).2 = none ↔ ∀ p ∈ e.parents, (idxLookup d.index_map p).isSome := by
  by_cases hall : ∀ p ∈ e.parents, (idxLookup d.index_map p).isSome
  · rw [SpacetimeDAG.addEvent, if_pos hall]
    exact iff_of_true rfl hall
  · rw [SpacetimeDAG.addEvent, if_neg hall]
    exact iff_of_false (by simp) hall

/-- The state after a successful `add_event`: node appended, hash inserted
into the index at the new node position, heads retained and pushed. -/
theorem addEvent_ok_state (d : SpacetimeDAG) (e : Event)
    (hall : ∀ p ∈ e.parents, (idxLookup d.index_map p).isSome) :
    (d.addEvent e).1.nodes = d.nodes ++ [e] ∧
    (d.addEvent e).1.index_map = idxInsert d.index_map e.hash d.nodes.length ∧
    (d.addEvent e).1.heads =
      d.heads.filter (fun h => decide (h ∉ e.parents)) ++ [e.hash] := by
  refine ⟨?_, ?_, ?_⟩ <;> simp [SpacetimeDAG.addEvent, if_pos hall]

/-- Induction invariant for DAG states reachable by duplicate-free admission:
the index keys are exactly the resident hashes, every resident parent link
points into the index, `heads` has no duplicates and is exactly the set of
index hashes not parented by any resident event, and genesis is resident. -/
def DagInv (gh : ℕ) (d : SpacetimeDAG) : Prop :=
  (∀ h, h ∈ d.indexKeys ↔ h ∈ d.nodes.map Event.hash) ∧
  (∀ e ∈ d.nodes, ∀ p ∈ e.parents, p ∈ d.indexKeys) ∧
  d.heads.Nodup ∧
  (∀ h, h ∈ d.heads ↔ h ∈ d.indexKeys ∧ ∀ e ∈ d.nodes, h ∉ e.parents) ∧
  gh ∈ d.indexKeys

/-- Sequences of successful `add_event` calls in which each admitted event's
hash is not yet in the index (duplicate-free admission). -/
inductive DupFreeAdmits : SpacetimeDAG → SpacetimeDAG → Prop
  | refl (d : SpacetimeDAG) : DupFreeAdmits d d
  | step {d₀ d : SpacetimeDAG} (e : Event) :
      DupFreeAdmits d₀ d →
      idxLookup d.index_map e.hash = none →
      (d.addEvent e).2 = none →
      DupFreeAdmits d₀ (d.addEvent e).1

/-- The invariant holds for a freshly created DAG. -/
theorem dagInv_new (gid gh : ℕ) : DagInv gh (SpacetimeDAG.new gid gh) := by
  refine ⟨?_, ?_, ?_, ?_, ?_⟩ <;>
    simp [SpacetimeDAG.new, SpacetimeDAG.indexKeys]

/-- The invariant is preserved by one successful duplicate-free admission. -/
theorem dagInv_step (gh : ℕ) (d : SpacetimeDAG) (e : Event)
    (hinv : DagInv gh d)
    (hfresh : idxLookup d.index_map e.hash = none)
    (hok : (d.addEvent e).2 = none) :
    DagInv gh (d.addEvent e).1 := by
  obtain ⟨hkeys, hclosed, hnodup, hheads, hgh⟩ := hinv
  have hall := (addEvent_ok_iff d e).mp hok
  obtain ⟨hn, hi, hh⟩ := addEvent_ok_state d e hall
  have hfresh' : e.hash ∉ d.indexKeys := (idxLookup_eq_none_iff _ _).mp hfresh
  have hkeys' : ∀ h, h ∈ (d.addEvent e).1.indexKeys ↔ h = e.hash ∨ h ∈ d.indexKeys := by
    intro h
    rw [SpacetimeDAG.indexKeys, hi]
    exact idxInsert_keys d.index_map e.hash d.nodes.length h
  have hparents_sub : ∀ p ∈ e.parents, p ∈ d.indexKeys := by
    intro p hp
    exact (idxLookup_isSome_iff _ _).mp (hall p hp)
  have hesh_not_parent_old : ∀ e' ∈ d.nodes, e.hash ∉ e'.parents := by
    intro e' he' hmem
    exact hfresh' (hclosed e' he' _ hmem)
  have hesh_not_own : e.hash ∉ e.parents := fun hmem => hfresh' (hparents_sub _ hmem)
  refine ⟨?_, ?_, ?_, ?_, ?_⟩
  · intro h
    rw [hkeys' h, hn]
    simp only [List.map_append, List.map_cons, List.map_nil, List.mem_append,
      List.mem_singleton, hkeys h]
    tauto
  · intro e' he' p hp
    rw [hn] at he'
    rw [hkeys' p]
    rcases List.mem_append.mp he' with h1 | h2
    · exact Or.inr (hclosed e' h1 p hp)
    · rw [List.mem_singleton] at h2
      subst h2
      exact Or.inr (hparents_sub p hp)
  · rw [hh]
    refine List.Nodup.append (hnodup.filter _) (List.nodup_singleton _) ?_
    intro a ha hae
    rw [List.mem_singleton] at hae
    subst hae
    have hmem : e.hash ∈ d.heads := (List.mem_filter.mp ha).1
    exact hfresh' ((hheads e.hash).mp hmem).1
  · intro h
    rw [hh, hn, hkeys' h]
    simp only [List.forall_mem_append, List.forall_mem_singleton]
    simp only [List.mem_append, List.mem_filter, List.mem_singleton,
      decide_eq_true_eq]
    have hold := hheads h
    constructor
    · rintro (⟨hh1, hh2⟩ | rfl)
      · obtain ⟨hk, hall'⟩ := hold.mp hh1
        exact ⟨Or.inr hk, hall', hh2⟩
      · exact ⟨Or.inl rfl, hesh_not_parent_old, hesh_not_own⟩
    · rintro ⟨hk | hk, hall', hne⟩
      · exact Or.inr hk
      · exact Or.inl ⟨hold.mpr ⟨hk, hall'⟩, hne⟩
  · exact (hkeys' gh).mpr (Or.inr hgh)

/-- Duplicate-free admission sequences from a fresh DAG preserve the
invariant. -/
theorem dupFreeAdmits_inv (gid gh : ℕ) (d : SpacetimeDAG)
    (h : DupFreeAdmits (SpacetimeDAG.new gid gh) d) : DagInv gh d := by
  induction h with
  | refl => exact dagInv_new gid gh
  | step e hprev hfresh hok ih => exact dagInv_step gh _ e ih hfresh hok

/-- Claim C1 (amended): for every sequence of successful `add_event` calls on
a freshly created DAG in which no admitted event's hash is already resident
(duplicate-free admission), the heads list is duplicate-free and equals, as a
set, exactly `{ h ∈ index | no resident event lists h in its parents }`; in
particular it contains the genesis hash iff no resident event has parented
genesis.  (The unrestricted claim is refuted by
`dag_heads_duplicate_readmission_breaks_spec`: re-admitting a resident event
is also a successful call and breaks head correctness.) -/
theorem dag_head_correctness_of_dupfree (gid gh : ℕ) (d : SpacetimeDAG)
    (hadm : DupFreeAdmits (SpacetimeDAG.new gid gh) d) :
    d.heads.Nodup ∧
    (∀ h, h ∈ d.heads ↔ h ∈ d.indexKeys ∧ ∀ e ∈ d.nodes, h ∉ e.parents) ∧
    (gh ∈ d.heads ↔ ∀ e ∈ d.nodes, gh ∉ e.parents) := by
  obtain ⟨_, _, hnodup, hheads, hgh⟩ := dupFreeAdmits_inv gid gh d hadm
  refine ⟨hnodup, hheads, ?_⟩
  rw [hheads gh]
  exact and_iff_right hgh

/-- Witness for the amended C1: a concrete duplicate-free trace (genesis,
then one event parenting genesis) on which the head-correctness conclusions
hold. -/
theorem dag_head_correctness_of_dupfree_witness :
    (((SpacetimeDAG.new 0 1).addEvent
        ⟨10, {1}, ⟨0, 0, 0, 0⟩, Operation.put [5] [1], 2⟩).1.heads.Nodup) ∧
    (∀ h, h ∈ ((SpacetimeDAG.new 0 1).addEvent
        ⟨10, {1}, ⟨0, 0, 0, 0⟩, Operation.put [5] [1], 2⟩).1.heads ↔
      h ∈ ((SpacetimeDAG.new 0 1).addEvent
        ⟨10, {1}, ⟨0, 0, 0, 0⟩, Operation.put [5] [1], 2⟩).1.indexKeys ∧
      ∀ e ∈ ((SpacetimeDAG.new 0 1).addEvent
        ⟨10, {1}, ⟨0, 0, 0, 0⟩, Operation.put [5] [1], 2⟩).1.nodes,
        h ∉ e.parents) ∧
    ((1 : ℕ) ∈ ((SpacetimeDAG.new 0 1).addEvent
        ⟨10, {1}, ⟨0, 0, 0, 0⟩, Operation.put [5] [1], 2⟩).1.heads ↔
      ∀ e ∈ ((SpacetimeDAG.new 0 1).addEvent
        ⟨10, {1}, ⟨0, 0, 0, 0⟩, Operation.put [5] [1], 2⟩).1.nodes,
        (1 : ℕ) ∉ e.parents) :=
  dag_head_correctness_of_dupfree 0 1 _
    (DupFreeAdmits.step ⟨10, {1}, ⟨0, 0, 0, 0⟩, Operation.put [5] [1], 2⟩
      (DupFreeAdmits.refl _) (by decide) (by decide))

/-- Claim C1 (corrected), counterexample: the successful call sequence
"admit A (hash 2, parent genesis), admit C (hash 3, parent A), re-admit A"
leaves hash 2 in `heads` although the resident event C lists 2 among its
parents, so heads is not the set of unparented index hashes. -/
theorem dag_heads_duplicate_readmission_breaks_spec :
    ((((SpacetimeDAG.new 0 1).addEvent
        ⟨10, {1}, ⟨0, 0, 0, 0⟩, Operation.put [5] [1], 2⟩).2 = none) ∧
     ((((SpacetimeDAG.new 0 1).addEvent
        ⟨10, {1}, ⟨0, 0, 0, 0⟩, Operation.put [5] [1], 2⟩).1.addEvent
        ⟨11, {2}, ⟨0, 0, 0, 0⟩, Operation.merge, 3⟩).2 = none) ∧
     (((((SpacetimeDAG.new 0 1).addEvent
        ⟨10, {1}, ⟨0, 0, 0, 0⟩, Operation.put [5] [1], 2⟩).1.addEvent
        ⟨11, {2}, ⟨0, 0, 0, 0⟩, Operation.merge, 3⟩).1.addEvent
        ⟨10, {1}, ⟨0, 0, 0, 0⟩, Operation.put [5] [1], 2⟩).2 = none)) ∧
    (2 : ℕ) ∈ ((((SpacetimeDAG.new 0 1).addEvent
        ⟨10, {1}, ⟨0, 0, 0, 0⟩, Operation.put [5] [1], 2⟩).1.addEvent
        ⟨11, {2}, ⟨0, 0, 0, 0⟩, Operation.merge, 3⟩).1.addEvent
        ⟨10, {1}, ⟨0, 0, 0, 0⟩, Operation.put [5] [1], 2⟩).1.heads ∧
    (2 : ℕ) ∈ ((((SpacetimeDAG.new 0 1).addEvent
        ⟨10, {1}, ⟨0, 0, 0, 0⟩, Operation.put [5] [1], 2⟩).1.addEvent
        ⟨11, {2}, ⟨0, 0, 0, 0⟩, Operation.merge, 3⟩).1.addEvent
        ⟨10, {1}, ⟨0, 0, 0, 0⟩, Operation.put [5] [1], 2⟩).1.indexKeys ∧
    ∃ e ∈ ((((SpacetimeDAG.new 0 1).addEvent
        ⟨10, {1}, ⟨0, 0, 0, 0⟩, Operation.put [5] [1], 2⟩).1.addEvent
        ⟨11, {2}, ⟨0, 0, 0, 0⟩, Operation.merge, 3⟩).1.addEvent
        ⟨10, {1}, ⟨0, 0, 0, 0⟩, Operation.put [5] [1], 2⟩).1.nodes,
      (2 : ℕ) ∈ e.parents := by
  decide

/-! ## Spacetime claims -/

/-- For coordinate times below `2^127` the `u128 as i128` casts and the
i128 subtraction in `interval_sq`/`partial_cmp` are exact. -/
theorem deltaTNs_of_bounded (a b : SpacetimeCoord)
    (ha : a.t < 2 ^ 127) (hb : b.t < 2 ^ 127) :
    deltaTNs a b = (b.t : ℤ) - a.t := by
  have ha' : a.t % 2 ^ 128 = a.t := Nat.mod_eq_of_lt (by omega)
  have hb' : b.t % 2 ^ 128 = b.t := Nat.mod_eq_of_lt (by omega)
  have ha2 : (a.t : ℤ) < 2 ^ 127 := by exact_mod_cast ha
  have hb2 : (b.t : ℤ) < 2 ^ 127 := by exact_mod_cast hb
  have h0a : (0 : ℤ) ≤ (a.t : ℤ) := Int.natCast_nonneg _
  have h0b : (0 : ℤ) ≤ (b.t : ℤ) := Int.natCast_nonneg _
  unfold deltaTNs asI128 wrapI128
  rw [ha', hb', if_pos (by omega), if_pos (by omega),
    Int.emod_eq_of_lt h0a (by omega), Int.emod_eq_of_lt h0b (by omega),
    Int.emod_eq_of_lt (by omega) (by omega)]
  ring

/-- Claim C5 (amended): for coordinates whose `t` components are below
`2^127` (the range on which the code's `u128 as i128` cast is lossless),
`partial_compare` returns `Incomparable` exactly when the squared interval
computed by `interval_sq` is negative, and otherwise the sign of
`b.t - a.t`, with `Equal` only for `Δt = 0`.  (At `t ≥ 2^127` the cast
wraps and the returned ordering follows the wrapped difference instead:
`spacetime_cmp_wraps_at_large_t`.) -/
theorem spacetime_cmp_spec_of_bounded_t (c : ℚ) (a b : SpacetimeCoord)
    (ha : a.t < 2 ^ 127) (hb : b.t < 2 ^ 127) :
    partialCmp c a b =
      if intervalSq c a b < 0 then none
      else if a.t < b.t then some Ordering.lt
      else if b.t < a.t then some Ordering.gt
      else some Ordering.eq := by
  rw [partialCmp]
  by_cases hs : intervalSq c a b < 0
  · rw [if_pos hs, if_pos hs]
  · rw [if_neg hs, if_neg hs, deltaTNs_of_bounded a b ha hb]
    by_cases h1 : a.t < b.t
    · rw [if_pos (by omega : (0 : ℤ) < (b.t : ℤ) - a.t), if_pos h1]
    · rw [if_neg (by omega : ¬ (0 : ℤ) < (b.t : ℤ) - a.t)]
      by_cases h2 : b.t < a.t
      · rw [if_pos (by omega : (b.t : ℤ) - a.t < 0), if_neg h1, if_pos h2]
      · rw [if_neg (by omega : ¬ (b.t : ℤ) - a.t < 0), if_neg h1, if_neg h2]

/-- Witness for the amended C5 at the spec's S3 example: `a = (0,0,0,0)`,
`b = (10,0,0,0)` under `c = 1` compare as `Less`. -/
theorem spacetime_cmp_spec_of_bounded_t_witness :
    partialCmp 1 ⟨0, 0, 0, 0⟩ ⟨10, 0, 0, 0⟩ = some Ordering.lt := by
  rw [spacetime_cmp_spec_of_bounded_t 1 ⟨0, 0, 0, 0⟩ ⟨10, 0, 0, 0⟩
    (by norm_num) (by norm_num)]
  have hdelta : deltaTNs ⟨0, 0, 0, 0⟩ ⟨10, 0, 0, 0⟩ = 10 := by decide
  have hs : ¬ intervalSq 1 ⟨0, 0, 0, 0⟩ ⟨10, 0, 0, 0⟩ < 0 := by
    simp only [intervalSq, hdelta]
    push_neg
    have h := mul_self_nonneg ((1 : ℚ) * (((10 : ℤ) : ℚ) * (1 / 1000000000)))
    push_cast at h ⊢
    nlinarith [h]
  rw [if_neg hs, if_pos (by norm_num : (0 : ℕ) < 10)]

/-- Claim C5 (corrected), counterexample: at `a.t = 0`, `b.t = 2^127` (so
`b.t > a.t`) with zero spatial separation and `c = 1`, the squared interval
is non-negative yet `partial_compare` returns `Greater` instead of `Less`,
because the `u128 as i128` cast wraps `b.t` to `-2^127`. -/
theorem spacetime_cmp_wraps_at_large_t :
    partialCmp 1 ⟨0, 0, 0, 0⟩ ⟨2 ^ 127, 0, 0, 0⟩ = some Ordering.gt ∧
    (0 : ℕ) < 2 ^ 127 ∧
    ¬ intervalSq 1 ⟨0, 0, 0, 0⟩ ⟨2 ^ 127, 0, 0, 0⟩ < 0 := by
  have hdelta : deltaTNs ⟨0, 0, 0, 0⟩ ⟨2 ^ 127, 0, 0, 0⟩ = -(2 ^ 127) := by
    decide
  have hs : ¬ intervalSq 1 ⟨0, 0, 0, 0⟩ ⟨2 ^ 127, 0, 0, 0⟩ < 0 := by
    simp only [intervalSq, hdelta]
    push_neg
    have h := mul_self_nonneg ((1 : ℚ) * (((-(2 ^ 127) : ℤ) : ℚ) * (1 / 1000000000)))
    push_cast at h ⊢
    nlinarith [h]
  refine ⟨?_, by positivity, hs⟩
  rw [partialCmp, if_neg hs, hdelta]
  norm_num

/-! ## Hashing and wire claims -/

/-- Claim C8 (confirmed): the content hash is a deterministic function of
`(id, parents, coords, payload)` - equal fields produce the identical byte
feed and hence a bytewise-equal digest under any digest function `H`, the
stored hash of a constructed event is exactly that digest (so rehashing the
same fields reproduces it), and the canonical ascending iteration of the
parent `BTreeSet` makes the feed independent of the order in which the
parent hashes were inserted. -/
theorem event_hash_deterministic (H : List ℕ → ℕ)
    (id₁ id₂ : ℕ) (ps₁ ps₂ : Finset ℕ) (c₁ c₂ : SpacetimeCoord)
    (pl₁ pl₂ : Operation)
    (hid : id₁ = id₂) (hps : ps₁ = ps₂) (hc : c₁ = c₂) (hpl : pl₁ = pl₂) :
    (Event.new H id₁ ps₁ c₁ pl₁).hash = (Event.new H id₂ ps₂ c₂ pl₂).hash ∧
    computeHash H id₁ ps₁ c₁ pl₁ = (Event.new H id₁ ps₁ c₁ pl₁).hash ∧
    ∀ l₁ l₂ : List ℕ, l₁.Perm l₂ →
      (Event.new H id₁ l₁.toFinset c₁ pl₁).hash =
        (Event.new H id₁ l₂.toFinset c₁ pl₁).hash := by
  subst hid
  subst hps
  subst hc
  subst hpl
  refine ⟨rfl, rfl, ?_⟩
  intro l₁ l₂ hperm
  rw [List.toFinset_eq_of_perm _ _ hperm]

/-- Witness for C8 at concrete inputs: equal fields give equal hashes, the
stored hash is the computed one, and the parent lists `[3,4]` and `[4,3]`
hash identically. -/
theorem event_hash_deterministic_witness :
    ((Event.new (fun _ => 0) 5 {3} ⟨1, 0, 0, 0⟩ (Operation.put [1] [2])).hash =
      (Event.new (fun _ => 0) 5 {3} ⟨1, 0, 0, 0⟩ (Operation.put [1] [2])).hash) ∧
    (computeHash (fun _ => 0) 5 {3} ⟨1, 0, 0, 0⟩ (Operation.put [1] [2]) =
      (Event.new (fun _ => 0) 5 {3} ⟨1, 0, 0, 0⟩ (Operation.put [1] [2])).hash) ∧
    ((Event.new (fun _ => 0) 5 ([3, 4] : List ℕ).toFinset ⟨1, 0, 0, 0⟩
        (Operation.put [1] [2])).hash =
      (Event.new (fun _ => 0) 5 ([4, 3] : List ℕ).toFinset ⟨1, 0, 0, 0⟩
        (Operation.put [1] [2])).hash) := by
  have h := event_hash_deterministic (fun _ => 0) 5 5 {3} {3} ⟨1, 0, 0, 0⟩
    ⟨1, 0, 0, 0⟩ (Operation.put [1] [2]) (Operation.put [1] [2]) rfl rfl rfl rfl
  exact ⟨h.1, h.2.1, h.2.2 [3, 4] [4, 3] (List.Perm.swap 4 3 [])⟩

/-- Claim C9 (code bug): the `hash` field is indeed not part of the wire
serialization (the wire form of an event does not depend on it), but the
receive path in src/network.rs does not recompute it: `bincode::deserialize`
fills the serde-skipped field with its default, the all-zero digest, and the
decoded event keeps hash `0` - not the content hash the sender stored -
while all other fields round-trip. -/
theorem wire_hash_skipped_not_recomputed (e : Event) :
    Event.toWire { e with hash := 0 } = e.toWire ∧
    (WireEvent.decode e.toWire).hash = 0 ∧
    (WireEvent.decode e.toWire).id = e.id ∧
    (WireEvent.decode e.toWire).parents = e.parents ∧
    (WireEvent.decode e.toWire).coords = e.coords ∧
    (WireEvent.decode e.toWire).payload = e.payload :=
  ⟨rfl, rfl, rfl, rfl, rfl, rfl⟩

/-! ## The physics gate (src/physics.rs)

PendingPacket's `Ord` in src/physics.rs is the REVERSED comparison on
`available_at` (`other.available_at.cmp(&self.available_at)`), so Rust's
max-heap `BinaryHeap` pops the packet with the earliest deadline.  The
buffer is modelled as the heap's backing array (a list), and `push`/`pop`
follow the Rust standard library's algorithms exactly: `push` appends and
sifts up; `pop` swaps the last element into the root, walks the hole to the
bottom always taking the child that compares greater in heap order (the
smaller deadline, preferring the right child on ties), then sifts back up.
In heap order `a <= b` iff `b.available_at <= a.available_at`; the
comparisons below are spelled on `available_at` directly. -/

/-- PendingPacket from src/physics.rs: a deadline (monotonic instant,
modelled as a rational) and the buffered protocol message (identified by a
natural number; its payload is irrelevant to the gate). -/
structure PendingPacket where
  available_at : ℚ
  msg : ℕ
deriving DecidableEq

/-- Read of position `i` of the backing array. -/
def lget (l : List PendingPacket) (i : ℕ) : PendingPacket := (l[i]?).getD ⟨0, 0⟩

/-- Swap of positions `i` and `j` of the backing array. -/
def lswap (l : List PendingPacket) (i j : ℕ) : List PendingPacket :=
  (l.set i (lget l j)).set j (lget l i)

theorem lswap_length (l : List PendingPacket) (i j : ℕ) :
    (lswap l i j).length = l.length := by
  simp [lswap]

/-- BinaryHeap::sift_up from the Rust standard library (hole-free
formulation by swaps, which produces the same array): move the element at
`pos` towards the root while it is strictly greater in heap order (strictly
earlier deadline) than its parent.  The `fuel` argument only bounds the
loop; `pos` many steps always suffice (`siftUp` instantiates it), keeping
the recursion structural so that concrete runs evaluate. -/
def siftUpF : ℕ → List PendingPacket → ℕ → ℕ → List PendingPacket
  | 0, l, _, _ => l
  | fuel + 1, l, start, pos =>
    if pos ≤ start then l
    else
      let parent := (pos - 1) / 2
      if (lget l parent).available_at ≤ (lget l pos).available_at then l
      else siftUpF fuel (lswap l parent pos) start parent

/-- BinaryHeap::sift_up with its sufficient fuel. -/
def siftUp (l : List PendingPacket) (start pos : ℕ) : List PendingPacket :=
  siftUpF pos l start pos

/-- BinaryHeap::push: append and sift up from the new last position. -/
def heapPush (l : List PendingPacket) (x : PendingPacket) : List PendingPacket :=
  siftUp (l ++ [x]) 0 l.length

/-- BinaryHeap::sift_down_to_bottom from the Rust standard library (swap
formulation): walk the element at `pos` to the bottom, always taking the
child greater in heap order (the earlier deadline; the right child when the
comparison ties), then sift the element back up.  The `fuel` argument only
bounds the loop; `l.length` steps always suffice (`siftDown` instantiates
it). -/
def siftDownF : ℕ → List PendingPacket → ℕ → ℕ → List PendingPacket
  | 0, l, _, _ => l
  | fuel + 1, l, start, pos =>
    let child := 2 * pos + 1
    if child + 1 < l.length then
      let child2 :=
        if (lget l (child + 1)).available_at ≤ (lget l child).available_at then
          child + 1
        else child
      siftDownF fuel (lswap l pos child2) start child2
    else if child + 1 = l.length then
      siftUp (lswap l pos child) start child
    else
      siftUp l start pos

/-- BinaryHeap::sift_down_to_bottom with its sufficient fuel. -/
def siftDown (l : List PendingPacket) (start pos : ℕ) : List PendingPacket :=
  siftDownF l.length l start pos

theorem siftUpF_length :
    ∀ fuel l start pos, (siftUpF fuel l start pos).length = l.length := by
  intro fuel
  induction fuel with
  | zero => intro l start pos; rfl
  | succ fuel ih =>
    intro l start pos
    unfold siftUpF
    dsimp only
    split
    · rfl
    · split
      · rfl
      · rw [ih, lswap_length]

theorem siftUp_length (l : List PendingPacket) (start pos : ℕ) :
    (siftUp l start pos).length = l.length :=
  siftUpF_length pos l start pos

theorem siftDownF_length :
    ∀ fuel l start pos, (siftDownF fuel l start pos).length = l.length := by
  intro fuel
  induction fuel with
  | zero => intro l start pos; rfl
  | succ fuel ih =>
    intro l start pos
    unfold siftDownF
    dsimp only
    split
    · rw [ih, lswap_length]
    · split
      · rw [siftUp_length, lswap_length]
      · exact siftUp_length l start pos

theorem siftDown_len (l : List PendingPacket) (start pos : ℕ) :
    (siftDown l start pos).length = l.length :=
  siftDownF_length l.length l start pos

/-- BinaryHeap::pop, state part: remove the last element, place it at the
root and sift it down-and-up.  (The returned packet is the old root,
`lget l 0`; on an empty heap nothing happens.) -/
def heapPopState (l : List PendingPacket) : List PendingPacket :=
  if l.length ≤ 1 then []
  else siftDown ((l.dropLast).set 0 (lget l (l.length - 1))) 0 0

theorem heapPopState_length (l : List PendingPacket) :
    (heapPopState l).length = l.length - 1 := by
  unfold heapPopState
  split
  · simp
    omega
  · rw [siftDown_len]
    simp

/-- PhysicsLayer::drain loop from src/physics.rs, instrumented to return the
released packets (deadline and message) rather than only the messages:
repeatedly peek the root and pop it while its deadline is at or before
`now`, which is sampled once at the start of the call.  Returns the
released packets in pop order together with the remaining buffer.  The
`fuel` argument only bounds the loop; the buffer length suffices
(`drainPk` instantiates it). -/
def drainPkF : ℕ → ℚ → List PendingPacket → List PendingPacket × List PendingPacket
  | 0, _, l => ([], l)
  | fuel + 1, now, l =>
    if l = [] then ([], l)
    else if (lget l 0).available_at ≤ now then
      let r := drainPkF fuel now (heapPopState l)
      (lget l 0 :: r.1, r.2)
    else ([], l)

/-- The drain loop with its sufficient fuel. -/
def drainPk (now : ℚ) (l : List PendingPacket) :
    List PendingPacket × List PendingPacket :=
  drainPkF l.length now l

/-- PhysicsLayer from src/physics.rs: the pending buffer (backing array of
the `BinaryHeap`) and the speed of light fixed at construction. -/
structure PhysicsLayer where
  buffer : List PendingPacket
  c : ℚ
deriving DecidableEq

/-- PhysicsLayer::new. -/
def PhysicsLayer.new (c : ℚ) : PhysicsLayer := { buffer := [], c := c }

/-- PhysicsLayer::ingest (the non-panicking executions): the delay is
`dist / self.c`, clamped to zero when its sign is negative, and the packet
is scheduled at `now + delay`.  (`is_sign_negative` on exact rationals is
`< 0`; the IEEE sign/NaN/infinity edge cases and the
`Duration::from_secs_f64` panic are modelled by `ingestChecked` below.) -/
def PhysicsLayer.ingest (p : PhysicsLayer) (now : ℚ) (msg : ℕ) (dist : ℚ) :
    PhysicsLayer :=
  let delay := dist / p.c
  let delay := if delay < 0 then 0 else delay
  { p with buffer := heapPush p.buffer ⟨now + delay, msg⟩ }

/-- PhysicsLayer::drain: the code returns only the messages of the released
packets. -/
def PhysicsLayer.drain (p : PhysicsLayer) (now : ℚ) : List ℕ × PhysicsLayer :=
  let r := drainPk now p.buffer
  (r.1.map PendingPacket.msg, { p with buffer := r.2 })

/-- PhysicsLayer::drain_arrived, the alias of `drain` used by the network
loop. -/
def PhysicsLayer.drainArrived (p : PhysicsLayer) (now : ℚ) :
    List ℕ × PhysicsLayer :=
  p.drain now

/-! ## Heap lemmas: reads, swaps and multiset preservation -/

theorem lget_eq_getElem (l : List PendingPacket) (i : ℕ) (h : i < l.length) :
    lget l i = l[i] := by
  simp [lget, List.getElem?_eq_getElem h]

theorem lget_lswap (l : List PendingPacket) (i j x : ℕ)
    (hi : i < l.length) (hj : j < l.length) :
    lget (lswap l i j) x =
      if x = j then lget l i else if x = i then lget l j else lget l x := by
  unfold lswap lget
  by_cases hxj : x = j
  · subst hxj
    simp [List.getElem?_set, hj, List.length_set]
  · by_cases hxi : x = i
    · subst hxi
      rw [if_neg hxj, if_pos rfl]
      simp [List.getElem?_set, hxj, Ne.symm hxj, hi]
    · rw [if_neg hxj, if_neg hxi]
      simp [List.getElem?_set, Ne.symm hxj, Ne.symm hxi]

theorem lswap_perm (l : List PendingPacket) (i j : ℕ)
    (hi : i < l.length) (hj : j < l.length) : (lswap l i j).Perm l := by
  rw [List.perm_iff_count]
  intro a
  have hj' : j < (l.set i (lget l j)).length := by simpa using hj
  unfold lswap
  rw [List.count_set _ _ _ _ hj', List.count_set _ _ _ _ hi]
  simp only [List.getElem_set]
  simp only [lget_eq_getElem l j hj, lget_eq_getElem l i hi]
  have h1 : l[i] = a → 1 ≤ List.count a l :=
    fun he => List.count_pos_iff.mpr (he ▸ List.getElem_mem hi)
  have h2 : l[j] = a → 1 ≤ List.count a l :=
    fun he => List.count_pos_iff.mpr (he ▸ List.getElem_mem hj)
  by_cases hij : i = j
  · rw [if_pos hij]
    subst hij
    by_cases hbi : (l[i] == a) = true
    · have := h1 (by simpa using hbi)
      simp [hbi] <;> omega
    · simp [hbi]
  · rw [if_neg hij]
    by_cases hbi : (l[i] == a) = true <;> by_cases hbj : (l[j] == a) = true
    · have := h1 (by simpa using hbi)
      simp [hbi, hbj] <;> omega
    · have := h1 (by simpa using hbi)
      simp [hbi, hbj] <;> omega
    · have := h2 (by simpa using hbj)
      simp [hbi, hbj] <;> omega
    · simp [hbi, hbj]

theorem siftUpF_perm :
    ∀ fuel l start pos, pos < l.length → (siftUpF fuel l start pos).Perm l := by
  intro fuel
  induction fuel with
  | zero => intro l start pos _; exact List.Perm.refl l
  | succ fuel ih =>
    intro l start pos hpos
    unfold siftUpF
    dsimp only
    split
    · exact List.Perm.refl l
    · split
      · exact List.Perm.refl l
      · have hpar : (pos - 1) / 2 < l.length := by omega
        exact (ih _ _ _ (by rw [lswap_length]; omega)).trans
          (lswap_perm l _ pos hpar hpos)

theorem siftUp_perm (l : List PendingPacket) (start pos : ℕ)
    (h : pos < l.length) : (siftUp l start pos).Perm l :=
  siftUpF_perm pos l start pos h

theorem siftDownF_perm :
    ∀ fuel l start pos, pos < l.length → (siftDownF fuel l start pos).Perm l := by
  intro fuel
  induction fuel with
  | zero => intro l start pos _; exact List.Perm.refl l
  | succ fuel ih =>
    intro l start pos hpos
    unfold siftDownF
    dsimp only
    split
    · rename_i hcond
      have hch : (if (lget l (2 * pos + 1 + 1)).available_at ≤
          (lget l (2 * pos + 1)).available_at then 2 * pos + 1 + 1
          else 2 * pos + 1) < l.length := by
        split <;> omega
      exact (ih _ _ _ (by rw [lswap_length]; exact hch)).trans
        (lswap_perm l pos _ hpos hch)
    · split
      · rename_i hcond1 hcond2
        have hch : 2 * pos + 1 < l.length := by omega
        exact (siftUp_perm _ _ _ (by rw [lswap_length]; exact hch)).trans
          (lswap_perm l pos _ hpos hch)
      · exact siftUp_perm _ _ _ hpos

theorem siftDown_perm (l : List PendingPacket) (start pos : ℕ)
    (h : pos < l.length) : (siftDown l start pos).Perm l :=
  siftDownF_perm l.length l start pos h

theorem heapPush_perm (l : List PendingPacket) (x : PendingPacket) :
    (heapPush l x).Perm (x :: l) := by
  unfold heapPush
  exact (siftUp_perm _ _ _ (by simp)).trans (List.perm_append_singleton x l)

theorem heapPopState_perm (l : List PendingPacket) (h : l ≠ []) :
    l.Perm (lget l 0 :: heapPopState l) := by
  unfold heapPopState
  split
  · rename_i hlen
    have h1 : l.length = 1 := by
      have := List.length_pos.mpr h
      omega
    obtain ⟨a, rfl⟩ := List.length_eq_one.mp h1
    exact List.Perm.refl _
  · rename_i hlen
    push_neg at hlen
    have hlen2 : 2 ≤ l.length := hlen
    have hd_ne : l.dropLast ≠ [] := by
      intro hcon
      have := congrArg List.length hcon
      simp at this
      omega
    obtain ⟨hd, tl, hdl⟩ := List.exists_cons_of_ne_nil hd_ne
    have hhd : hd = lget l 0 := by
      have h0 : (l.dropLast)[0]? = l[0]? := by
        rw [List.getElem?_dropLast]
        rw [if_pos (by omega)]
      rw [hdl] at h0
      simp at h0
      rw [lget, ← h0]
      rfl
    have hlast : l = l.dropLast ++ [lget l (l.length - 1)] := by
      conv_lhs => rw [← List.dropLast_append_getLast h]
      rw [List.getLast_eq_getElem, lget_eq_getElem l _ (by omega)]
    have hset : (l.dropLast).set 0 (lget l (l.length - 1)) =
        lget l (l.length - 1) :: tl := by
      rw [hdl]
      rfl
    have hperm1 : (siftDown ((l.dropLast).set 0 (lget l (l.length - 1))) 0 0).Perm
        ((l.dropLast).set 0 (lget l (l.length - 1))) := by
      refine siftDown_perm _ _ _ ?_
      simp
      omega
    refine List.Perm.trans ?_ ((List.Perm.cons _ hperm1).symm)
    rw [hset]
    conv_lhs => rw [hlast, hdl, hhd]
    rw [List.cons_append]
    exact List.Perm.cons _ (List.perm_append_singleton _ _)

/-! ## Heap invariant and its preservation by the Rust sift algorithms -/

/-- The binary-heap shape invariant of the backing array, stated on
deadlines: every parent's deadline is at or before its children's (the heap
is a max-heap for the reversed `Ord`, i.e. a min-heap on `available_at`). -/
def IsHeap (l : List PendingPacket) : Prop :=
  ∀ i, 0 < i → i < l.length →
    (lget l ((i - 1) / 2)).available_at ≤ (lget l i).available_at

/-- In a heap the root deadline is minimal. -/
theorem isHeap_root_le (l : List PendingPacket) (hh : IsHeap l) :
    ∀ i, i < l.length →
      (lget l 0).available_at ≤ (lget l i).available_at := by
  intro i
  induction i using Nat.strong_induction_on with
  | _ i ih =>
    intro hlen
    rcases Nat.eq_zero_or_pos i with h0 | h0
    · subst h0
      exact le_refl _
    · exact le_trans (ih ((i - 1) / 2) (by omega) (by omega)) (hh i h0 hlen)

/-- Membership form of root minimality. -/
theorem isHeap_root_le_mem (l : List PendingPacket) (hh : IsHeap l) :
    ∀ q ∈ l, (lget l 0).available_at ≤ q.available_at := by
  intro q hq
  obtain ⟨n, hn, rfl⟩ := List.mem_iff_getElem.mp hq
  rw [← lget_eq_getElem l n hn]
  exact isHeap_root_le l hh n hn

/-- Invariant of the sift-up loop: the array is a heap except possibly on
the edge into `pos` (where the moving element sits), and the children of
`pos` are bounded below even by the parent of `pos`. -/
def UpInv (l : List PendingPacket) (pos : ℕ) : Prop :=
  (∀ i, 0 < i → i < l.length → i ≠ pos →
    (lget l ((i - 1) / 2)).available_at ≤ (lget l i).available_at) ∧
  (0 < pos → ∀ c, c < l.length → (c - 1) / 2 = pos →
    (lget l ((pos - 1) / 2)).available_at ≤ (lget l c).available_at)

/-- One swap step of sift-up preserves its loop invariant. -/
theorem upInv_step (l : List PendingPacket) (pos : ℕ)
    (hpos : pos < l.length) (h0 : 0 < pos) (hinv : UpInv l pos)
    (hlt : ¬ (lget l ((pos - 1) / 2)).available_at ≤
      (lget l pos).available_at) :
    UpInv (lswap l ((pos - 1) / 2) pos) ((pos - 1) / 2) := by
  have hplen : (pos - 1) / 2 < l.length := by omega
  have hppos : (pos - 1) / 2 < pos := by omega
  have helt := le_of_lt (lt_of_not_le hlt)
  constructor
  · intro i hi0 hilen hip
    rw [lswap_length] at hilen
    rw [lget_lswap l _ pos _ hplen hpos, lget_lswap l _ pos _ hplen hpos]
    by_cases hipos : i = pos
    · subst hipos
      rw [if_pos rfl, if_neg (by omega : ¬ (i - 1) / 2 = i),
        if_pos rfl]
      exact helt
    · by_cases hqp : (i - 1) / 2 = (i - 1) / 2 ∧ True
      · clear hqp
        by_cases hsib : (i - 1) / 2 = (pos - 1) / 2
        · rw [if_neg hipos, if_neg hip, hsib,
            if_neg (by omega : ¬ (pos - 1) / 2 = pos), if_pos rfl]
          exact le_trans helt (hsib ▸ hinv.1 i hi0 hilen hipos)
        · by_cases hchild : (i - 1) / 2 = pos
          · rw [if_neg hipos, if_neg hip, hchild, if_pos rfl]
            exact hinv.2 h0 i hilen hchild
          · rw [if_neg hipos, if_neg hip, if_neg hchild, if_neg hsib]
            exact hinv.1 i hi0 hilen hipos
      · exact absurd ⟨rfl, trivial⟩ hqp
  · intro hp0 c hclen hcq
    rw [lswap_length] at hclen
    have hg : ((pos - 1) / 2 - 1) / 2 < (pos - 1) / 2 := by omega
    rw [lget_lswap l _ pos _ hplen hpos, lget_lswap l _ pos _ hplen hpos,
      if_neg (by omega : ¬ ((pos - 1) / 2 - 1) / 2 = pos),
      if_neg (by omega : ¬ ((pos - 1) / 2 - 1) / 2 = (pos - 1) / 2)]
    by_cases hcpos : c = pos
    · subst hcpos
      rw [if_pos rfl]
      exact hinv.1 _ hp0 hplen (by omega)
    · have hcp : c ≠ (pos - 1) / 2 := by omega
      rw [if_neg hcpos, if_neg hcp]
      refine le_trans (hinv.1 _ hp0 hplen (by omega)) ?_
      have h1 := hinv.1 c (by omega) hclen hcpos
      rw [hcq] at h1
      exact h1

/-- Sift-up turns its loop invariant into a full heap (the fuel `pos`
always suffices). -/
theorem siftUpF_isHeap :
    ∀ fuel pos l, pos ≤ fuel → pos < l.length → UpInv l pos →
      IsHeap (siftUpF fuel l 0 pos) := by
  intro fuel
  induction fuel with
  | zero =>
    intro pos l hfuel hlen hinv
    intro i hi0 hilen
    exact hinv.1 i hi0 hilen (by omega)
  | succ fuel ih =>
    intro pos l hfuel hlen hinv
    unfold siftUpF
    dsimp only
    split
    · rename_i hstart
      intro i hi0 hilen
      exact hinv.1 i hi0 hilen (by omega)
    · split
      · rename_i hstart hbreak
        intro i hi0 hilen
        by_cases hip : i = pos
        · subst hip
          exact hbreak
        · exact hinv.1 i hi0 hilen hip
      · rename_i hstart hbreak
        exact ih _ _ (by omega) (by rw [lswap_length]; omega)
          (upInv_step l pos hlen (by omega) hinv hbreak)

/-- Invariant of the sift-down walk: the array is a heap except on edges
touching `pos` (where the walked element sits), and the children of `pos`
are bounded below even by the parent of `pos`. -/
def DInv (l : List PendingPacket) (pos : ℕ) : Prop :=
  (∀ i, 0 < i → i < l.length → i ≠ pos → (i - 1) / 2 ≠ pos →
    (lget l ((i - 1) / 2)).available_at ≤ (lget l i).available_at) ∧
  (0 < pos → ∀ c, c < l.length → (c - 1) / 2 = pos →
    (lget l ((pos - 1) / 2)).available_at ≤ (lget l c).available_at)

/-- When `pos` has no children the walk invariant gives the sift-up
invariant directly. -/
theorem dInv_upInv_noChild (l : List PendingPacket) (pos : ℕ)
    (hpos : pos < l.length) (hnc : l.length ≤ 2 * pos + 1)
    (hinv : DInv l pos) : UpInv l pos := by
  constructor
  · intro i hi0 hilen hip
    exact hinv.1 i hi0 hilen hip (by omega)
  · intro h0 c hclen hcq
    exact absurd hclen (by omega)

/-- Terminal move of the walk when exactly the left child `2*pos+1` is the
last array position: after swapping into it, the sift-up invariant holds
there. -/
theorem dInv_upInv_lastChild (l : List PendingPacket) (pos : ℕ)
    (hpos : pos < l.length) (hc : 2 * pos + 1 + 1 = l.length)
    (hinv : DInv l pos) :
    UpInv (lswap l pos (2 * pos + 1)) (2 * pos + 1) := by
  have hch : 2 * pos + 1 < l.length := by omega
  constructor
  · intro i hi0 hilen hic
    rw [lswap_length] at hilen
    rw [lget_lswap l pos _ _ hpos hch, lget_lswap l pos _ _ hpos hch]
    by_cases hipos : i = pos
    · subst hipos
      have h0 : 0 < i := hi0
      rw [if_neg (by omega : ¬ (i - 1) / 2 = 2 * i + 1),
        if_neg (by omega : ¬ (i - 1) / 2 = i),
        if_neg (by omega : ¬ i = 2 * i + 1), if_pos rfl]
      exact hinv.2 hi0 _ hch (by omega)
    · have hqpos : (i - 1) / 2 ≠ pos := by omega
      have hqch : (i - 1) / 2 ≠ 2 * pos + 1 := by omega
      rw [if_neg hqch, if_neg hqpos, if_neg hic, if_neg hipos]
      exact hinv.1 i hi0 hilen hipos hqpos
  · intro h0 c hclen hcq
    rw [lswap_length] at hclen
    exact absurd hclen (by omega)

/-- One walk step of sift-down preserves its invariant: `child2` is the
child of `pos` chosen by the Rust tie-breaking comparison (the smaller
deadline, right child on ties). -/
theorem dInv_step (l : List PendingPacket) (pos child2 : ℕ)
    (hpos : pos < l.length) (hc2 : 2 * pos + 1 + 1 < l.length)
    (hch : child2 = 2 * pos + 1 ∨ child2 = 2 * pos + 1 + 1)
    (hmin : ∀ c, c = 2 * pos + 1 ∨ c = 2 * pos + 1 + 1 →
      (lget l child2).available_at ≤ (lget l c).available_at)
    (hinv : DInv l pos) : DInv (lswap l pos child2) child2 := by
  have hchlt : child2 < l.length := by omega
  have hchpos : pos < child2 := by omega
  constructor
  · intro i hi0 hilen hic hiq
    rw [lswap_length] at hilen
    rw [lget_lswap l pos _ _ hpos hchlt, lget_lswap l pos _ _ hpos hchlt]
    by_cases hipos : i = pos
    · subst hipos
      rw [if_neg (by omega : ¬ (i - 1) / 2 = child2),
        if_neg (by omega : ¬ (i - 1) / 2 = i),
        if_neg (by omega : ¬ i = child2), if_pos rfl]
      exact hinv.2 hi0 _ hchlt (by omega)
    · by_cases hqpos : (i - 1) / 2 = pos
      · have hio : i = 2 * pos + 1 ∨ i = 2 * pos + 1 + 1 := by omega
        rw [hqpos, if_neg (by omega : ¬ pos = child2), if_pos rfl,
          if_neg hic, if_neg hipos]
        exact hmin i hio
      · rw [if_neg hiq, if_neg hqpos, if_neg hic, if_neg hipos]
        exact hinv.1 i hi0 hilen hipos hqpos
  · intro h0 c hclen hcq
    rw [lswap_length] at hclen
    have hcbig : 2 * child2 + 1 ≤ c := by omega
    rw [lget_lswap l pos _ _ hpos hchlt, lget_lswap l pos _ _ hpos hchlt,
      if_neg (by omega : ¬ (child2 - 1) / 2 = child2),
      if_pos (by omega : (child2 - 1) / 2 = pos),
      if_neg (by omega : ¬ c = child2), if_neg (by omega : ¬ c = pos)]
    have h1 := hinv.1 c (by omega) hclen (by omega) (by omega)
    rw [hcq] at h1
    exact h1

/-- Sift-down-to-bottom turns its invariant into a full heap (fuel
`l.length` always suffices). -/
theorem siftDownF_isHeap :
    ∀ fuel pos l, l.length ≤ fuel + pos → pos < l.length → DInv l pos →
      IsHeap (siftDownF fuel l 0 pos) := by
  intro fuel
  induction fuel with
  | zero =>
    intro pos l hfuel hlen
    exact absurd hfuel (by omega)
  | succ fuel ih =>
    intro pos l hfuel hlen hinv
    unfold siftDownF
    dsimp only
    split
    · rename_i hcond
      split
      · rename_i hcmp
        refine ih _ _ (by rw [lswap_length]; omega)
          (by rw [lswap_length]; omega) ?_
        refine dInv_step l pos _ hlen hcond (Or.inr rfl) ?_ hinv
        rintro c (rfl | rfl)
        · exact hcmp
        · exact le_refl _
      · rename_i hcmp
        refine ih _ _ (by rw [lswap_length]; omega)
          (by rw [lswap_length]; omega) ?_
        refine dInv_step l pos _ hlen hcond (Or.inl rfl) ?_ hinv
        rintro c (rfl | rfl)
        · exact le_refl _
        · exact le_of_lt (lt_of_not_le hcmp)
    · split
      · rename_i hcond1 hcond2
        unfold siftUp
        exact siftUpF_isHeap _ _ _ (le_refl _)
          (by rw [lswap_length]; omega)
          (dInv_upInv_lastChild l pos hlen hcond2 hinv)
      · rename_i hcond1 hcond2
        unfold siftUp
        exact siftUpF_isHeap _ _ _ (le_refl _) hlen
          (dInv_upInv_noChild l pos hlen (by omega) hinv)

theorem lget_append (l l2 : List PendingPacket) (i : ℕ) (h : i < l.length) :
    lget (l ++ l2) i = lget l i := by
  simp [lget, List.getElem?_append, h]

/-- BinaryHeap::push preserves the heap invariant. -/
theorem heapPush_isHeap (l : List PendingPacket) (x : PendingPacket)
    (hh : IsHeap l) : IsHeap (heapPush l x) := by
  unfold heapPush siftUp
  refine siftUpF_isHeap l.length l.length (l ++ [x]) (le_refl _) (by simp) ?_
  constructor
  · intro i hi0 hilen hip
    simp only [List.length_append, List.length_cons, List.length_nil] at hilen
    have hi : i < l.length := by omega
    have hq : (i - 1) / 2 < l.length := by omega
    rw [lget_append _ _ _ hi, lget_append _ _ _ hq]
    exact hh i hi0 hi
  · intro h0 c hclen hcq
    simp only [List.length_append, List.length_cons, List.length_nil] at hclen
    omega

theorem lget_popInit (l : List PendingPacket) (v : PendingPacket) (x : ℕ)
    (h0 : 0 < x) (hx : x < l.length - 1) :
    lget ((l.dropLast).set 0 v) x = lget l x := by
  unfold lget
  rw [List.getElem?_set, if_neg (by omega), List.getElem?_dropLast,
    if_pos (by simpa using hx)]

/-- BinaryHeap::pop preserves the heap invariant. -/
theorem heapPopState_isHeap (l : List PendingPacket) (hh : IsHeap l) :
    IsHeap (heapPopState l) := by
  unfold heapPopState
  split
  · intro i hi0 hilen
    simp at hilen
  · rename_i hlen
    push_neg at hlen
    unfold siftDown
    refine siftDownF_isHeap _ 0 _ (by omega) (by simp; omega) ?_
    constructor
    · intro i hi0 hilen hip hiq
      rw [List.length_set, List.length_dropLast] at hilen
      rw [lget_popInit l _ i hi0 (by omega),
        lget_popInit l _ _ (by omega) (by omega)]
      exact hh i hi0 (by omega)
    · intro h0
      exact absurd h0 (lt_irrefl 0)

/-- Full specification of the drain loop on a heap: every released packet is
due, releases are in ascending deadline order, every still-buffered packet
is in the future, the buffer splits (as a multiset) into released plus
remaining, and the remaining buffer is again a heap. -/
theorem drainPkF_spec :
    ∀ fuel now l, l.length ≤ fuel → IsHeap l →
      (∀ q ∈ (drainPkF fuel now l).1, q.available_at ≤ now) ∧
      List.Pairwise (fun a b => a.available_at ≤ b.available_at)
        (drainPkF fuel now l).1 ∧
      (∀ q ∈ (drainPkF fuel now l).2, now < q.available_at) ∧
      l.Perm ((drainPkF fuel now l).1 ++ (drainPkF fuel now l).2) ∧
      IsHeap (drainPkF fuel now l).2 := by
  intro fuel
  induction fuel with
  | zero =>
    intro now l hlen hh
    have hnil : l = [] := List.eq_nil_of_length_eq_zero (by omega)
    subst hnil
    exact ⟨by simp [drainPkF], by simp [drainPkF], by simp [drainPkF],
      by simp [drainPkF], by simpa [drainPkF] using hh⟩
  | succ fuel ih =>
    intro now l hlen hh
    unfold drainPkF
    dsimp only
    split
    · rename_i hnil
      subst hnil
      exact ⟨by simp, by simp, by simp, by simp, hh⟩
    · rename_i hne
      split
      · rename_i hroot
        have hpermpop : l.Perm (lget l 0 :: heapPopState l) :=
          heapPopState_perm l hne
        have hh' : IsHeap (heapPopState l) := heapPopState_isHeap l hh
        have hlen' : (heapPopState l).length ≤ fuel := by
          rw [heapPopState_length]
          have := List.length_pos.mpr hne
          omega
        obtain ⟨ih1, ih2, ih3, ih4, ih5⟩ := ih now (heapPopState l) hlen' hh'
        have hmeml : ∀ q ∈ (drainPkF fuel now (heapPopState l)).1, q ∈ l := by
          intro q hq
          refine hpermpop.mem_iff.mpr (List.mem_cons_of_mem _ ?_)
          exact ih4.symm.subset (List.mem_append_left _ hq)
        refine ⟨?_, ?_, ih3, ?_, ih5⟩
        · intro q hq
          rcases List.mem_cons.mp hq with rfl | hq'
          · exact hroot
          · exact ih1 q hq'
        · rw [List.pairwise_cons]
          exact ⟨fun b hb => isHeap_root_le_mem l hh b (hmeml b hb), ih2⟩
        · dsimp only
          exact hpermpop.trans (List.Perm.cons _ ih4)
      · rename_i hroot
        refine ⟨by simp, by simp, ?_, by simp, hh⟩
        intro q hq
        exact lt_of_lt_of_le (lt_of_not_le hroot) (isHeap_root_le_mem l hh q hq)

/-- Gate states reachable by the operations of PhysicsLayer. -/
inductive Reachable : PhysicsLayer → Prop
  | new (c : ℚ) : Reachable (PhysicsLayer.new c)
  | ingest (p : PhysicsLayer) (now : ℚ) (msg : ℕ) (dist : ℚ) :
      Reachable p → Reachable (p.ingest now msg dist)
  | drain (p : PhysicsLayer) (now : ℚ) :
      Reachable p → Reachable (p.drain now).2

/-- Every reachable gate buffer satisfies the heap invariant. -/
theorem reachable_isHeap (p : PhysicsLayer) (h : Reachable p) :
    IsHeap p.buffer := by
  induction h with
  | new c =>
    intro i hi0 hilen
    simp [PhysicsLayer.new] at hilen
  | ingest p' now msg dist hp ih =>
    exact heapPush_isHeap _ _ ih
  | drain p' now hp ih =>
    have := (drainPkF_spec p'.buffer.length now p'.buffer (le_refl _) ih).2.2.2.2
    simpa [PhysicsLayer.drain, drainPk] using this

/-- Claim C2 (confirmed): for every reachable gate state, a `drain_arrived`
call at instant `now` returns exactly the messages of the packets released
by the drain loop; every released packet is due (`available_at ≤ now` - no
early release), the releases are in ascending `available_at` order, every
packet still buffered is strictly in the future, every buffered packet that
is due is released, and the buffer splits as a multiset into released plus
remaining. -/
theorem physics_drain_no_early_release_sorted_complete
    (p : PhysicsLayer) (now : ℚ) (hre : Reachable p) :
    ((p.drainArrived now).1 = (drainPk now p.buffer).1.map PendingPacket.msg) ∧
    (∀ q ∈ (drainPk now p.buffer).1, q.available_at ≤ now) ∧
    List.Pairwise (fun a b => a.available_at ≤ b.available_at)
      (drainPk now p.buffer).1 ∧
    (∀ q ∈ (p.drainArrived now).2.buffer, now < q.available_at) ∧
    (∀ q ∈ p.buffer, q.available_at ≤ now → q ∈ (drainPk now p.buffer).1) ∧
    p.buffer.Perm
      ((drainPk now p.buffer).1 ++ (p.drainArrived now).2.buffer) := by
  have hh := reachable_isHeap p hre
  obtain ⟨h1, h2, h3, h4, _h5⟩ :=
    drainPkF_spec p.buffer.length now p.buffer (le_refl _) hh
  refine ⟨rfl, h1, h2, h3, ?_, h4⟩
  intro q hq hqle
  rcases List.mem_append.mp (h4.mem_iff.mp hq) with h | h
  · exact h
  · exact absurd hqle (not_le.mpr (h3 q h))

/-- Witness for C2 at a concrete input: a fresh gate with one message of
deadline 2 (ingested at instant 0 with distance 2 and c = 1), drained at
instant 5. -/
theorem physics_drain_no_early_release_sorted_complete_witness :
    ((((PhysicsLayer.new 1).ingest 0 7 2).drainArrived 5).1 =
      (drainPk 5 ((PhysicsLayer.new 1).ingest 0 7 2).buffer).1.map
        PendingPacket.msg) ∧
    List.Pairwise (fun a b => a.available_at ≤ b.available_at)
      (drainPk 5 ((PhysicsLayer.new 1).ingest 0 7 2).buffer).1 ∧
    ((PhysicsLayer.new 1).ingest 0 7 2).buffer.Perm
      ((drainPk 5 ((PhysicsLayer.new 1).ingest 0 7 2).buffer).1 ++
        ((((PhysicsLayer.new 1).ingest 0 7 2).drainArrived 5).2.buffer)) := by
  have h := physics_drain_no_early_release_sorted_complete
    ((PhysicsLayer.new 1).ingest 0 7 2) 5
    (Reachable.ingest _ 0 7 2 (Reachable.new 1))
  exact ⟨h.1, h.2.2.1, h.2.2.2.2.2⟩

section
attribute [local semireducible] Rat.add Rat.mul Rat.inv Rat.sub Rat.ofScientific

/-- Claim C6 (corrected), counterexample: with `c = 1`, ingesting message 0
(distance 1, deadline 1), then message 1 (distance 1, deadline 1), then
message 2 (distance 0, deadline 0), all at instant 0, puts the backing
array into the state `[(0,2), (1,1), (1,0)]`; draining at instant 2
releases `[2, 1, 0]`.  Messages 0 and 1 have identical deadlines and were
ingested in the order 0 then 1, but are released 1 then 0: the gate
reorders equal-deadline messages (its heap key carries no ingest sequence
number). -/
theorem physics_gate_ties_not_fifo :
    (((((PhysicsLayer.new 1).ingest 0 0 1).ingest 0 1 1).ingest 0 2 0).buffer =
      [⟨0, 2⟩, ⟨1, 1⟩, ⟨1, 0⟩]) ∧
    ((((((PhysicsLayer.new 1).ingest 0 0 1).ingest 0 1 1).ingest
        0 2 0).drainArrived 2).1 = [2, 1, 0]) := by
  decide

end

/-- Claim C6 (amended): the FIFO-tie guarantee does hold in the two-message
case - a gate holding exactly two packets with identical computed deadlines
releases them in ingest order - but with more packets the heap pop order can
invert equal-deadline messages (`physics_gate_ties_not_fifo`). -/
theorem physics_gate_two_message_tie_fifo
    (c now₁ now₂ now : ℚ) (m₁ m₂ : ℕ) (d₁ d₂ : ℚ)
    (htie : now₁ + (if d₁ / c < 0 then 0 else d₁ / c) =
      now₂ + (if d₂ / c < 0 then 0 else d₂ / c))
    (hdue : now₁ + (if d₁ / c < 0 then 0 else d₁ / c) ≤ now) :
    ((((PhysicsLayer.new c).ingest now₁ m₁ d₁).ingest
        now₂ m₂ d₂).drainArrived now).1 = [m₁, m₂] := by
  set t₁ := now₁ + (if d₁ / c < 0 then 0 else d₁ / c) with ht₁
  set t₂ := now₂ + (if d₂ / c < 0 then 0 else d₂ / c) with ht₂
  have hbuf : (((PhysicsLayer.new c).ingest now₁ m₁ d₁).ingest
      now₂ m₂ d₂).buffer = [⟨t₁, m₁⟩, ⟨t₂, m₂⟩] := by
    show heapPush (heapPush [] ⟨t₁, m₁⟩) ⟨t₂, m₂⟩ = _
    have h1 : heapPush [] ⟨t₁, m₁⟩ = [⟨t₁, m₁⟩] := rfl
    rw [h1]
    show siftUpF 1 [⟨t₁, m₁⟩, ⟨t₂, m₂⟩] 0 1 = _
    unfold siftUpF
    rw [if_neg (by omega), if_pos (by simp [lget]; rw [htie])]
  show ((((PhysicsLayer.new c).ingest now₁ m₁ d₁).ingest
      now₂ m₂ d₂).drain now).1 = _
  rw [PhysicsLayer.drain]
  dsimp only
  rw [hbuf]
  show ((drainPkF 2 now [⟨t₁, m₁⟩, ⟨t₂, m₂⟩]).1.map PendingPacket.msg) = _
  have hpop1 : heapPopState [⟨t₁, m₁⟩, ⟨t₂, m₂⟩] = [⟨t₂, m₂⟩] := rfl
  have hpop2 : heapPopState [(⟨t₂, m₂⟩ : PendingPacket)] = [] := rfl
  unfold drainPkF
  rw [if_neg (by simp), if_pos (by simpa [lget] using hdue)]
  dsimp only
  rw [hpop1]
  unfold drainPkF
  rw [if_neg (by simp), if_pos (by simp [lget]; rw [← htie]; exact hdue)]
  dsimp only
  rw [hpop2]
  unfold drainPkF
  simp [lget]

/-- Witness for the amended C6: two messages ingested at instant 0 with
`c = 1` and distances 1 (equal deadlines 1) drain at instant 2 in ingest
order. -/
theorem physics_gate_two_message_tie_fifo_witness :
    ((((PhysicsLayer.new 1).ingest 0 8 1).ingest 0 9 1).drainArrived 2).1 =
      [8, 9] :=
  physics_gate_two_message_tie_fifo 1 0 0 2 8 9 1 1 rfl (by norm_num)

/-! ## The process-global speed-of-light knob (src/spacetime.rs) and the
gate's constructor-fixed `c` (src/physics.rs) -/

/-- Operations of a process in which the global knob and one gate coexist. -/
inductive WOp where
  | setC (v : ℚ)
  | ingest (now : ℚ) (msg : ℕ) (dist : ℚ)
  | drain (now : ℚ)
deriving DecidableEq

/-- Process state: the global `SPEED_OF_LIGHT` cell (initialized to
`DEFAULT_C`, written by `set_speed_of_light`) and one `PhysicsLayer`. -/
structure World where
  global : ℚ
  layer : PhysicsLayer
deriving DecidableEq

/-- Initial process state with a gate constructed by `PhysicsLayer::new c0`. -/
def World.init (c0 : ℚ) : World :=
  { global := DEFAULT_C, layer := PhysicsLayer.new c0 }

/-- One step: `set_speed_of_light` writes only the global cell; the gate's
operations touch only the gate (its `ingest` reads `self.c`, never the
global). -/
def World.step (w : World) : WOp → World
  | WOp.setC v => { w with global := v }
  | WOp.ingest now msg dist => { w with layer := w.layer.ingest now msg dist }
  | WOp.drain now => { w with layer := (w.layer.drain now).2 }

/-- Run a sequence of operations. -/
def World.run (w : World) (ops : List WOp) : World := ops.foldl World.step w

theorem world_run_layer_c (ops : List WOp) :
    ∀ w : World, (World.run w ops).layer.c = w.layer.c := by
  induction ops with
  | nil => intro w; rfl
  | cons op ops ih =>
    intro w
    rw [World.run, List.foldl_cons, ← World.run]
    rw [ih]
    cases op <;> rfl

/-- Claim C10 (confirmed): a gate constructed with `c0` keeps `c = c0`
through any interleaving of global-knob writes, ingests and drains; a
subsequent ingest schedules its packet with the deadline
`now + max 0 (dist / c0)` computed from the constructor-supplied value; and
appending a `set_speed_of_light` call to the history leaves the gate's
whole state untouched. -/
theorem physics_c_fixed_at_construction (c0 : ℚ) (ops : List WOp)
    (now : ℚ) (msg : ℕ) (dist : ℚ) (v : ℚ) :
    (World.run (World.init c0) ops).layer.c = c0 ∧
    ((World.run (World.init c0) ops).layer.ingest now msg dist).buffer.Perm
      ((⟨now + (if dist / c0 < 0 then 0 else dist / c0), msg⟩ : PendingPacket) ::
        (World.run (World.init c0) ops).layer.buffer) ∧
    (World.run (World.init c0) (ops ++ [WOp.setC v])).layer =
      (World.run (World.init c0) ops).layer := by
  have hc : (World.run (World.init c0) ops).layer.c = c0 :=
    world_run_layer_c ops (World.init c0)
  refine ⟨hc, ?_, ?_⟩
  · rw [PhysicsLayer.ingest]
    dsimp only
    rw [hc]
    exact heapPush_perm _ _
  · rw [World.run, List.foldl_append]
    rfl

/-! ## Totality of ingest over f64 distances (src/physics.rs lines 82-87)

`ingest` computes `delay = dist / self.c`, clamps it to `0.0` only when
`delay.is_sign_negative()`, and then calls `Duration::from_secs_f64(delay)`,
which panics on NaN, on infinities and on values of `2^64` seconds or more.
To settle the totality claim the f64 values reaching this code are modelled
by cases: NaN, infinity and zero each carry their IEEE sign bit, and nonzero
finite values carry their exact rational reading (rounding, overflow to
infinity and underflow to zero in the division are not modelled; NaN sign
propagation through division follows the hardware convention of preserving
the operand's sign). -/

inductive F64 where
  | nan (neg : Bool)
  | inf (neg : Bool)
  | zero (neg : Bool)
  | fin (q : ℚ)
deriving DecidableEq

/-- `f64::is_sign_negative`: the raw IEEE sign bit, true also for `-0.0`
and negative NaN. -/
def F64.isSignNegative : F64 → Bool
  | .nan neg => neg
  | .inf neg => neg
  | .zero neg => neg
  | .fin q => decide (q < 0)

/-- IEEE-754 division by cases, exact on finite quotients. -/
def F64.div : F64 → F64 → F64
  | .nan n, _ => .nan n
  | _, .nan n => .nan n
  | .inf _, .inf _ => .nan false
  | .inf a, .zero b => .inf (xor a b)
  | .inf a, .fin q => .inf (xor a (decide (q < 0)))
  | .zero _, .zero _ => .nan false
  | .zero a, .inf b => .zero (xor a b)
  | .zero a, .fin q => .zero (xor a (decide (q < 0)))
  | .fin p, .inf b => .zero (xor (decide (p < 0)) b)
  | .fin p, .zero b => .inf (xor (decide (p < 0)) b)
  | .fin p, .fin q => if q = 0 then .inf (decide (p < 0)) else .fin (p / q)

/-- `Duration::from_secs_f64`: returns the exact duration in seconds for
finite non-negative inputs below `2^64` seconds (`-0.0` included, since the
negativity check is the IEEE comparison `secs < 0.0`), and panics -
modelled as `none` - on NaN, infinities, negative finite values and values
of `2^64` seconds or more. -/
def durationFromSecsF64 : F64 → Option ℚ
  | .nan _ => none
  | .inf _ => none
  | .zero _ => some 0
  | .fin q => if q < 0 then none else if q < 2 ^ 64 then some q else none

/-- The sign-negative clamp on line 84 of src/physics.rs. -/
def clampDelay (d : F64) : F64 :=
  if d.isSignNegative then F64.zero false else d

/-- The delay `ingest` schedules for a packet at distance `dist` in a gate
with speed `c`, or `none` when `Duration::from_secs_f64` panics. -/
def ingestDelayF64 (dist c : F64) : Option ℚ :=
  durationFromSecsF64 (clampDelay (F64.div dist c))

section
attribute [local semireducible] Rat.add Rat.mul Rat.inv Rat.sub Rat.ofScientific

/-- Claim C7 (corrected), counterexample: in a gate with `c = 1.0`, ingest
is not total - a distance of `+∞` gives delay `+∞`, a NaN distance gives a
NaN delay (NaN's sign bit is clear, so the `is_sign_negative` clamp does
not catch it), and a finite distance of `2^64` meters gives a delay of
`2^64` seconds; in all three cases `Duration::from_secs_f64` panics. -/
theorem physics_ingest_panics_on_inf_nan_overflow :
    ingestDelayF64 (F64.inf false) (F64.fin 1) = none ∧
    ingestDelayF64 (F64.nan false) (F64.fin 1) = none ∧
    ingestDelayF64 (F64.fin (2 ^ 64)) (F64.fin 1) = none := by
  decide

end

/-- Claim C7 (amended): for a gate with positive finite speed `c`, ingest's
delay computation behaves as follows.  Negative finite distances and signed
zeros are clamped so the delay is exactly 0, and in that regime - plus
non-negative finite distances with `dist / c < 2^64` seconds, where the
delay is exactly `dist / c` and a fresh gate schedules the packet at
`now + dist / c` - ingest succeeds.  But it is not total: a positive-NaN or
`+∞` distance escapes the sign-negative clamp and panics in
`Duration::from_secs_f64`, as does any finite distance with
`dist / c ≥ 2^64` (only negative NaN and `-∞`, whose sign bit is set, are
clamped to 0). -/
theorem physics_ingest_delay_characterization (c : ℚ) (hc : 0 < c) :
    (∀ q : ℚ, q < 0 → ingestDelayF64 (F64.fin q) (F64.fin c) = some 0) ∧
    (∀ b, ingestDelayF64 (F64.zero b) (F64.fin c) = some 0) ∧
    (∀ q : ℚ, 0 ≤ q → q / c < 2 ^ 64 →
      ingestDelayF64 (F64.fin q) (F64.fin c) = some (q / c)) ∧
    (∀ (now : ℚ) (msg : ℕ) (q : ℚ), 0 ≤ q →
      ((PhysicsLayer.new c).ingest now msg q).buffer = [⟨now + q / c, msg⟩]) ∧
    (∀ q : ℚ, 2 ^ 64 ≤ q / c → ingestDelayF64 (F64.fin q) (F64.fin c) = none) ∧
    (∀ b, ingestDelayF64 (F64.nan b) (F64.fin c) =
      if b then some 0 else none) ∧
    (∀ b, ingestDelayF64 (F64.inf b) (F64.fin c) =
      if b then some 0 else none) := by
  have hc0 : c ≠ 0 := ne_of_gt hc
  have hcneg : ¬ c < 0 := not_lt.mpr hc.le
  refine ⟨?_, ?_, ?_, ?_, ?_, ?_, ?_⟩
  · intro q hq
    have hqc : q / c < 0 := div_neg_of_neg_of_pos hq hc
    rw [ingestDelayF64, F64.div, if_neg hc0, clampDelay]
    rw [if_pos (by simp [F64.isSignNegative, hqc])]
    rfl
  · intro b
    cases b
    · rw [ingestDelayF64, F64.div, clampDelay]
      rw [if_neg (by simp [F64.isSignNegative, hcneg, hc.le])]
      rfl
    · rw [ingestDelayF64, F64.div, clampDelay]
      rw [if_pos (by simp [F64.isSignNegative, hcneg, hc.le])]
      rfl
  · intro q hq hlt
    have hqc : ¬ q / c < 0 := not_lt.mpr (div_nonneg hq hc.le)
    rw [ingestDelayF64, F64.div, if_neg hc0, clampDelay]
    rw [if_neg (by simp [F64.isSignNegative, hqc])]
    rw [durationFromSecsF64]
    rw [if_neg hqc, if_pos hlt]
  · intro now msg q hq
    have hqc : ¬ q / c < 0 := not_lt.mpr (div_nonneg hq hc.le)
    show heapPush [] ⟨now + (if q / c < 0 then 0 else q / c), msg⟩ = _
    rw [if_neg hqc]
    rfl
  · intro q hge
    have hqc : ¬ q / c < 0 := not_lt.mpr (le_trans (by norm_num) hge)
    rw [ingestDelayF64, F64.div, if_neg hc0, clampDelay]
    rw [if_neg (by simp [F64.isSignNegative, hqc])]
    rw [durationFromSecsF64]
    rw [if_neg hqc, if_neg (not_lt.mpr hge)]
  · intro b
    cases b
    · rw [ingestDelayF64, F64.div, clampDelay]
      rw [if_neg (by simp [F64.isSignNegative])]
      rfl
    · rw [ingestDelayF64, F64.div, clampDelay]
      rw [if_pos (by simp [F64.isSignNegative])]
      rfl
  · intro b
    cases b
    · rw [ingestDelayF64, F64.div, clampDelay]
      rw [if_neg (by simp [F64.isSignNegative, hcneg, hc.le])]
      rfl
    · rw [ingestDelayF64, F64.div, clampDelay]
      rw [if_pos (by simp [F64.isSignNegative, hcneg, hc.le])]
      rfl

/-- Witness for the amended C7 at `c = 1`: a distance of `-3` is clamped to
delay 0, a distance of 5 gives delay 5 and schedules the packet 5 seconds
out, and a positive-NaN distance panics. -/
theorem physics_ingest_delay_characterization_witness :
    ingestDelayF64 (F64.fin (-3)) (F64.fin 1) = some 0 ∧
    ingestDelayF64 (F64.fin 5) (F64.fin 1) = some 5 ∧
    (((PhysicsLayer.new 1).ingest 0 7 5).buffer = [⟨5, 7⟩]) ∧
    ingestDelayF64 (F64.nan false) (F64.fin 1) = none := by
  have h := physics_ingest_delay_characterization 1 (by norm_num)
  refine ⟨h.1 (-3) (by norm_num), ?_, ?_, by simpa using h.2.2.2.2.2.1 false⟩
  · have h3 := h.2.2.1 5 (by norm_num) (by norm_num)
    rw [h3]
    norm_num
  · have h4 := h.2.2.2.1 0 7 5 (by norm_num)
    rw [h4]
    norm_num
